import Mathlib

/-!
# Verification of the memo-RF RTL ingest core

Shallow embedding of `scripts/rtl_ingest/vad.py`, `scripts/rtl_ingest/channelizer.py`
and the drop-oldest queue pattern of `scripts/rtl_ingest/main.py` /
`RTLChannelizerStream._run`, together with proofs of the spec's claims about them.

Audio samples are modelled exactly (the Python code computes on floats; float
rounding is out of scope).  The VAD is embedded generically over a
`LinearOrderedRing` of sample values: its only numeric operation is the frame
classification `sqrt(mean(frame**2)) >= threshold`, which over exact arithmetic
is equivalent to the ring inequality `threshold ≤ 0 ∨ threshold² · n ≤ Σ x²`
(lemma `isSpeechFrame_iff_rms` proves this equivalence against `Real.sqrt`).
Transcendental kernels that the channelizer takes from numpy/scipy (`np.exp`,
`np.angle`, `signal.sosfiltfilt`, `signal.resample`) are parameters of the
model carrying their documented length contracts as hypotheses; everything
written in the repository itself is embedded concretely.
-/

namespace MemoRF

/-! ## List helpers shared by the embedding -/

/-- Worker for `chunksExact`, structurally recursive on a fuel bound. -/
def chunksExactGo (n : ℕ) : ℕ → List α → List (List α)
  | 0, _ => []
  | fuel + 1, l =>
    if 0 < n ∧ (l.take n).length = n then
      l.take n :: chunksExactGo n fuel (l.drop n)
    else []

/-- Carve a list into consecutive chunks of exactly `n` elements, dropping any
trailing remainder — the frame loop of `SimpleVAD.process` (`vad.py` lines
41-47: `frame = audio[offset : offset + frame_samples]; if len(frame) <
frame_samples: break`). -/
def chunksExact (n : ℕ) (l : List α) : List (List α) :=
  chunksExactGo n l.length l

/-- Python slice `l[::d]`: every `d`-th element starting at index 0. -/
def strided (d : ℕ) : List α → List α
  | [] => []
  | x :: xs => x :: strided d (xs.drop (d - 1))
termination_by l => l.length
decreasing_by simp_wf; omega

/-- `np.diff`: successive differences `l[1:] - l[:-1]`. -/
def diffQ (l : List ℚ) : List ℚ :=
  List.zipWith (fun a b => b - a) l l.tail

/-- Running sums starting from `acc`. -/
def cumsumFrom (acc : ℚ) : List ℚ → List ℚ
  | [] => []
  | x :: xs => (acc + x) :: cumsumFrom (acc + x) xs

/-- `np.cumsum`. -/
def cumsum (l : List ℚ) : List ℚ := cumsumFrom 0 l

/-! ## VAD data model (`vad.py`)

`α` is the type of audio sample values. -/

section VADModel

variable {α : Type} [LinearOrderedRing α]

/-- Configuration derived in `SimpleVAD.__init__` from
`(sample_rate, threshold, min_speech_ms, end_silence_ms, frame_duration_ms)`. -/
structure VADConfig (α : Type) where
  threshold : α
  minSpeechFrames : ℕ
  endSilenceFrames : ℕ
  frameSamples : ℕ
deriving DecidableEq

/-- `SimpleVAD.__init__`: `min_speech_frames = max(1, min_speech_ms //
frame_duration_ms)`, `end_silence_frames = max(1, end_silence_ms //
frame_duration_ms)`, `frame_samples = sample_rate * frame_duration_ms // 1000`
(Python `//` on naturals is `Nat.div`). -/
def mkVADConfig (sampleRate : ℕ) (threshold : α)
    (minSpeechMs endSilenceMs frameDurationMs : ℕ) : VADConfig α :=
  { threshold := threshold
    minSpeechFrames := max 1 (minSpeechMs / frameDurationMs)
    endSilenceFrames := max 1 (endSilenceMs / frameDurationMs)
    frameSamples := sampleRate * frameDurationMs / 1000 }

/-- Mutable fields of a `SimpleVAD`: `_speech_frames`, `_silence_frames`,
`_buffer`, `_in_speech`. -/
structure VADState (α : Type) where
  speechFrames : ℕ
  silenceFrames : ℕ
  buffer : List (List α)
  inSpeech : Bool
deriving DecidableEq

/-- Fresh state set up by `SimpleVAD.__init__`; also the state after every
return to `Silence`. -/
def initVAD : VADState α := ⟨0, 0, [], false⟩

/-- Sum of squared samples of a frame. -/
def sumSq (f : List α) : α := (f.map (fun x => x * x)).sum

/-- The frame classification `rms >= threshold` of `vad.py` line 49, where
`rms = sqrt(mean(frame**2))`.  Over exact arithmetic and a nonempty frame,
`sqrt(s/n) ≥ t` holds iff `t ≤ 0 ∨ t²·n ≤ s`; `isSpeechFrame_iff_rms` below
proves this against the real square root, so this decidable form renders the
source's comparison faithfully.  (Frames handed to it by `process` always have
exactly `frameSamples > 0` samples.) -/
def isSpeechFrame (cfg : VADConfig α) (f : List α) : Bool :=
  decide (cfg.threshold ≤ 0 ∨ cfg.threshold ^ 2 * (f.length : α) ≤ sumSq f)

/-- One iteration of the frame loop of `SimpleVAD.process` (`vad.py` lines
48-73).  Returns the updated state together with `some segment` exactly when
the Python code executes `return segment`. -/
def stepFrame (cfg : VADConfig α) (s : VADState α) (f : List α) :
    VADState α × Option (List α) :=
  if isSpeechFrame cfg f then
    ({ speechFrames := s.speechFrames + 1
       silenceFrames := 0
       buffer := (if s.inSpeech then s.buffer else []) ++ [f]
       inSpeech := true }, none)
  else if s.inSpeech then
    let sil := s.silenceFrames + 1
    let buf := s.buffer ++ [f]
    if cfg.endSilenceFrames ≤ sil then
      if cfg.minSpeechFrames ≤ s.speechFrames then
        (initVAD, some buf.flatten)
      else
        (initVAD, none)
    else
      ({ speechFrames := s.speechFrames, silenceFrames := sil
         buffer := buf, inSpeech := true }, none)
  else
    ({ s with silenceFrames := 0 }, none)

/-- The frame loop of `SimpleVAD.process`: frames are consumed in order; the
loop stops early (discarding the remaining frames) as soon as a segment is
returned. -/
def processFrames (cfg : VADConfig α) :
    VADState α → List (List α) → VADState α × Option (List α)
  | s, [] => (s, none)
  | s, f :: fs =>
    match stepFrame cfg s f with
    | (s', some seg) => (s', some seg)
    | (s', none) => processFrames cfg s' fs

/-- `SimpleVAD.process`: carve the chunk into whole frames and run the loop. -/
def process (cfg : VADConfig α) (s : VADState α) (audio : List α) :
    VADState α × Option (List α) :=
  processFrames cfg s (chunksExact cfg.frameSamples audio)

/-- `SimpleVAD.flush` (`vad.py` lines 76-85). -/
def vadFlush (cfg : VADConfig α) (s : VADState α) : VADState α × Option (List α) :=
  if s.inSpeech = true ∧ s.buffer ≠ [] ∧ cfg.minSpeechFrames ≤ s.speechFrames then
    (initVAD, some s.buffer.flatten)
  else
    (s, none)

/-- Duration in milliseconds of the audio buffered in a VAD state, at the given
sample rate (`len(concat(buffer)) * 1000 // sample_rate`).  Used to state the
spec's "buffered duration" of §8. -/
def bufferedMs (sampleRate : ℕ) (s : VADState α) : ℕ :=
  s.buffer.flatten.length * 1000 / sampleRate

/-! ## Drop-oldest bounded queue
(`channelizer.py` `RTLChannelizerStream._run` lines 193-199 and `main.py`
`run_ingest` lines 98-104: `if q.full(): q.get_nowait(); q.put(x)`).
The head of the list is the oldest entry; `put` appends at the tail.
A Python `queue.Queue(maxsize=cap)` is `full()` iff `0 < cap ∧ cap ≤ len`. -/

/-- One producer-side enqueue with drop-oldest-on-full semantics.  A total
function: the producer never blocks. -/
def enqueueDrop (cap : ℕ) (q : List α) (x : α) : List α :=
  (if 0 < cap ∧ cap ≤ q.length then q.drop 1 else q) ++ [x]

/-- Enqueue a whole list of items in order, starting from queue `q`. -/
def runEnqueue (cap : ℕ) (q : List α) (xs : List α) : List α :=
  xs.foldl (enqueueDrop cap) q

/-- The per-channel driving loop of `main.py` `run_ingest` (lines 92-104):
feed successive audio chunks to the channel's VAD, collecting the segments it
emits, in order. -/
def runVAD (cfg : VADConfig α) (s : VADState α) (chunks : List (List α)) :
    VADState α × List (List α) :=
  chunks.foldl (fun acc c =>
    ((process cfg acc.1 c).1, acc.2 ++ ((process cfg acc.1 c).2).toList)) (s, [])

/-- The §8 VAD configuration: 16 kHz, frame 30 ms, min-speech 400 ms,
end-silence 800 ms (so 480-sample frames, 13 min-speech frames, 26 end-silence
frames), with a positive speech threshold of 1 (sample values are integers
here; §8 only asks that the tone be above threshold and the silence below). -/
def vadCfg8 : VADConfig ℤ := mkVADConfig 16000 1 400 800 30

/-- The §8 synthetic envelope — 200 ms of silence, 600 ms of tone (amplitude
2 > threshold), 900 ms of silence — presented to the VAD in 30 ms chunks
(chunk boundaries carry no information: `envFrames.flatten` is proved equal to
the sample-level envelope in the C1 theorem). -/
def envFrames : List (List ℤ) :=
  List.replicate 6 (List.replicate 480 0)
    ++ [List.replicate 320 0 ++ List.replicate 160 2]
    ++ List.replicate 19 (List.replicate 480 2)
    ++ [List.replicate 320 2 ++ List.replicate 160 0]
    ++ List.replicate 29 (List.replicate 480 0)
    ++ [List.replicate 320 0]

/-- A 200 ms tone burst (shorter than min-speech) followed by 900 ms of
silence, in 30 ms chunks. -/
def shortToneFrames : List (List ℤ) :=
  List.replicate 6 (List.replicate 480 2)
    ++ [List.replicate 320 2 ++ List.replicate 160 0]
    ++ List.replicate 29 (List.replicate 480 0)
    ++ [List.replicate 320 0]

/-- A VAD at a 1 kHz sample rate (30-sample frames) with the §8 timing
parameters: min-speech 400 ms (13 frames), end-silence 800 ms (26 frames). -/
def cfgC6 : VADConfig ℤ := mkVADConfig 1000 1 400 800 30

/-- 150 ms of tone followed by 270 ms of silence at 1 kHz: 5 speech frames
then 9 silent frames, leaving the VAD in `Speech` with 14 buffered frames
(420 ms ≥ 400 ms of buffered audio) but only 5 accumulated speech frames. -/
def c6Audio : List (List ℤ) :=
  List.replicate 5 (List.replicate 30 2) ++ List.replicate 9 (List.replicate 30 0)

/-- The (reachable) VAD state after feeding `c6Audio` to a fresh VAD. -/
def c6State : VADState ℤ := (runVAD cfgC6 initVAD c6Audio).1

end VADModel

/-! ## Channelizer data model (`channelizer.py`)

The channelizer computes on complex floats; it is embedded over exact
rationals.  `Qc` is a rational complex pair.  Functions the code calls out to
numpy/scipy (`np.exp`, `np.angle`, `signal.sosfiltfilt`, `signal.resample`)
plus the value of π are collected in `Kernels`; the claims about the
channelizer constrain only lengths and data flow, so the theorems carry the
kernels' documented length contracts as hypotheses. -/

/-- A complex number with rational parts. -/
structure Qc where
  re : ℚ
  im : ℚ
deriving DecidableEq

/-- Complex multiplication. -/
def cmul (a b : Qc) : Qc :=
  ⟨a.re * b.re - a.im * b.im, a.re * b.im + a.im * b.re⟩

/-- Complex zero (`np.zeros` padding value). -/
def czero : Qc := ⟨0, 0⟩

/-- External numeric kernels used by `channelizer.py`. -/
structure Kernels where
  /-- `np.exp(2πi·x)` as a function of the turn count `x` (the factor `2π` of
  `np.exp(-2j*np.pi*offset_hz*t)` is folded into the kernel's argument
  convention). -/
  cexp : ℚ → Qc
  /-- `signal.sosfiltfilt(self.sos_channel, ·)` — zero-phase channel lowpass. -/
  sosChannel : List Qc → List Qc
  /-- `signal.sosfiltfilt(self.sos_audio, ·)` — zero-phase audio lowpass. -/
  sosAudio : List ℚ → List ℚ
  /-- `signal.resample(audio, num)` — FFT resampler returning `num` samples. -/
  resample : List ℚ → ℕ → List ℚ
  /-- `np.angle` — the argument of a complex sample. -/
  argF : Qc → ℚ
  /-- The rational standing for the float constant `np.pi`. -/
  piQ : ℚ

/-- `AUDIO_RATE = 16000` (`channelizer.py` line 15). -/
def AUDIO_RATE : ℚ := 16000

/-- `NBFM_DEVIATION = 12500` (`channelizer.py` line 16). -/
def NBFM_DEVIATION : ℚ := 12500

/-- Python's banker's rounding `round(q)` (round half to even). -/
def pyRound (q : ℚ) : ℤ :=
  if q - ⌊q⌋ < 1/2 then ⌊q⌋
  else if 1/2 < q - ⌊q⌋ then ⌊q⌋ + 1
  else if ⌊q⌋ % 2 = 0 then ⌊q⌋ else ⌊q⌋ + 1

/-- `np.mod x y` for `y > 0`: `x - y*⌊x/y⌋` (numpy's remainder has the sign
of the divisor, like Python `%`). -/
def qmod (x y : ℚ) : ℚ := x - y * ⌊x / y⌋

/-- `np.unwrap` with default `discont = π`, `period = 2π` (numpy's
implementation: `dd = diff(p); ddmod = mod(dd + π, 2π) - π;
ddmod[(ddmod == -π) & (dd > 0)] = π; ph_correct = ddmod - dd;
ph_correct[abs(dd) < π] = 0; up[1:] = p[1:] + cumsum(ph_correct)`). -/
def unwrapQ (piQ : ℚ) (p : List ℚ) : List ℚ :=
  match p with
  | [] => []
  | p0 :: rest =>
    let dd := diffQ p
    let ddmod := dd.map (fun d => qmod (d + piQ) (2 * piQ) - piQ)
    let ddmod2 := List.zipWith
      (fun d m => if m = -piQ ∧ 0 < d then piQ else m) dd ddmod
    let phCorrect := List.zipWith
      (fun d m => if |d| < piQ then 0 else m - d) dd ddmod2
    p0 :: List.zipWith (fun x c => x + c) rest (cumsum phCorrect)

/-- `np.clip(·, -2.0, 2.0)`. -/
def clip2 (x : ℚ) : ℚ := min (max x (-2)) 2

/-- `_nbfm_demod` (`channelizer.py` lines 27-43): instantaneous frequency from
the phase derivative.  (The code indexes `inst_freq[0]`, so it is only ever
called on inputs of length ≥ 2 — the pipeline guarantees this; on the empty
diff the model returns `[]`.) -/
def nbfmDemod (K : Kernels) (sampleRate : ℚ) (x : List Qc) : List ℚ :=
  let phase := x.map K.argF
  let phaseUnwrap := unwrapQ K.piQ phase
  let instFreq := (diffQ phaseUnwrap).map (fun d => d * sampleRate / (2 * K.piQ))
  let instFreqPad :=
    match instFreq with
    | [] => []
    | h :: t => h :: h :: t
  let audio := instFreqPad.map (fun v => v / NBFM_DEVIATION)
  audio.map clip2

/-- Modelled from the spec (§4.2), for the refinement claim C4: "Instantaneous
frequency = first difference of unwrapped phase scaled by `R / (2π)`; pad the
first sample by repeating the first computed value so the output length
matches the input"; "Normalize by dividing by the nominal peak deviation
(12.5 kHz default) ...; hard-clip the result to [-2, 2]". -/
def specNbfmDemod (K : Kernels) (sampleRate : ℚ) (x : List Qc) : List ℚ :=
  let u := unwrapQ K.piQ (x.map K.argF)
  let instFreq := (diffQ u).map (fun d => d * sampleRate / (2 * K.piQ))
  let normalized := (instFreq.map (fun v => v / NBFM_DEVIATION)).map clip2
  match normalized with
  | [] => []
  | h :: t => h :: h :: t

/-- `_resample_to_16k` (`channelizer.py` lines 46-51). -/
def resampleTo16k (K : Kernels) (audio : List ℚ) (fromRate : ℚ) : List ℚ :=
  if fromRate = AUDIO_RATE then audio
  else K.resample audio (pyRound ((audio.length : ℚ) * AUDIO_RATE / fromRate)).toNat

/-- Immutable configuration set up by `Channelizer.__init__` (the filter
designs `sos_channel`/`sos_audio` and the time vector `_t` are determined by
these fields; the filters live in `Kernels`). -/
structure ChanConfig where
  centerFreqHz : ℚ
  sampleRate : ℚ
  frequenciesHz : List ℚ
  blockSamples : ℕ
deriving DecidableEq

/-- `Channelizer.__init__` validation (`channelizer.py` lines 67-68): raises
`ValueError` unless exactly 7 frequencies are given. -/
def mkChannelizer (centerFreqHz sampleRate : ℚ) (frequenciesHz : List ℚ)
    (blockSamples : ℕ) : Except String ChanConfig :=
  if frequenciesHz.length ≠ 7 then
    Except.error "frequencies_hz must have exactly 7 entries"
  else
    Except.ok ⟨centerFreqHz, sampleRate, frequenciesHz, blockSamples⟩

/-- `self.offsets_hz = [f - center_freq_hz for f in frequencies_hz]`. -/
def offsetsHz (c : ChanConfig) : List ℚ :=
  c.frequenciesHz.map (fun f => f - c.centerFreqHz)

/-- `self.decim = max(1, int(sample_rate / 50000))` (positive rates, so
`int` truncation is the floor). -/
def decim (c : ChanConfig) : ℕ :=
  max 1 (⌊c.sampleRate / 50000⌋).toNat

/-- `self.demod_rate = sample_rate / self.decim`. -/
def demodRate (c : ChanConfig) : ℚ :=
  c.sampleRate / (decim c : ℚ)

/-- The pad/truncate normalization at the top of `Channelizer.process_block`
(`channelizer.py` lines 95-100). -/
def normalizeBlock (c : ChanConfig) (iq : List Qc) : List Qc :=
  if iq.length < c.blockSamples then
    iq ++ List.replicate (c.blockSamples - iq.length) czero
  else
    iq.take c.blockSamples

/-- The mixing step of `Channelizer.process_block` (lines 104-106): multiply
the block by the oscillator recomputed from sample index 0
(`self._t[:len(iq_complex)]` with `_t = arange(block_samples)/sample_rate`,
so `t_k = k/sample_rate`). -/
def mixBlock (c : ChanConfig) (K : Kernels) (iq : List Qc)
    (offsetHz : ℚ) : List Qc :=
  List.zipWith cmul iq
    ((List.range iq.length).map
      (fun (k : ℕ) => K.cexp (-(offsetHz * (k : ℚ) / c.sampleRate))))

/-- Channel lowpass then decimation (lines 107-114): `sosfiltfilt` followed by
the stride slice `baseband[::decim]` when `decim > 1`. -/
def decimatedBaseband (c : ChanConfig) (K : Kernels) (bb : List Qc) : List Qc :=
  if 1 < decim c then strided (decim c) (K.sosChannel bb)
  else K.sosChannel bb

/-- The `rate` local of `Channelizer.process_block` (lines 110-114). -/
def chanRate (c : ChanConfig) : ℚ :=
  if 1 < decim c then demodRate c else c.sampleRate

/-- The per-channel body of `Channelizer.process_block` (lines 103-121):
mix to baseband, channel lowpass, decimate, NBFM-demodulate, audio lowpass,
resample to 16 kHz. -/
def processChannel (c : ChanConfig) (K : Kernels) (iq : List Qc)
    (offsetHz : ℚ) : List ℚ :=
  resampleTo16k K
    (K.sosAudio
      (nbfmDemod K (chanRate c) (decimatedBaseband c K (mixBlock c K iq offsetHz))))
    (chanRate c)

/-- `Channelizer.process_block` (`channelizer.py` lines 91-122). -/
def processBlock (c : ChanConfig) (K : Kernels) (iq : List Qc) :
    List (List ℚ) :=
  (offsetsHz c).map (processChannel c K (normalizeBlock c iq))

/-- Length of the decimated per-channel baseband: `ceil(blockSamples/decim)`
(a Python stride slice `[::d]` keeps `⌈n/d⌉` samples). -/
def decimLen (c : ChanConfig) : ℕ :=
  if 1 < decim c then (c.blockSamples + decim c - 1) / decim c
  else c.blockSamples

/-- The audio chunk length `process_block` produces on every channel: a pure
function of the configured block length, decimation factor and resampling
ratio. -/
def outLen (c : ChanConfig) : ℕ :=
  if chanRate c = AUDIO_RATE then decimLen c
  else (pyRound ((decimLen c : ℚ) * AUDIO_RATE / chanRate c)).toNat

/-- State-passing run of `process_block` over successive IQ blocks: the
configuration record stands for the `Channelizer` object, and each step
returns the object as left by the call — `process_block` assigns no attribute
(`channelizer.py` lines 91-122 only read `self`), which the embedding renders
by returning the record unchanged. -/
def runBlocks (K : Kernels) :
    ChanConfig → List (List Qc) → ChanConfig × List (List (List ℚ))
  | c, [] => (c, [])
  | c, iq :: rest =>
    let out := processBlock c K iq
    let next := runBlocks K c rest
    (next.1, out :: next.2)

/-- Trivial concrete kernels used to instantiate the channelizer theorems on
concrete inputs: identity filters, a zero-fill resampler and a constant
oscillator, all satisfying the documented length contracts. -/
def idKernels : Kernels :=
  { cexp := fun _ => ⟨1, 0⟩
    sosChannel := fun l => l
    sosAudio := fun l => l
    resample := fun _ n => List.replicate n 0
    argF := fun _ => 0
    piQ := 3 }

/-- A small concrete channelizer configuration: 7 channels, 16 kHz wideband
rate (so `decim = 1` and no resampling), 3-sample blocks. -/
def cW : ChanConfig := ⟨0, 16000, [0, 0, 0, 0, 0, 0, 0], 3⟩

/-! ## Helper lemmas -/

theorem chunksExactGo_eq_of_le {α : Type} (n : ℕ) :
    ∀ (fuel fuel' : ℕ) (l : List α), l.length ≤ fuel → l.length ≤ fuel' →
      chunksExactGo n fuel l = chunksExactGo n fuel' l := by
  intro fuel
  induction fuel with
  | zero =>
    intro fuel' l hl _
    have : l = [] := List.length_eq_zero.mp (Nat.le_zero.mp hl)
    subst this
    cases fuel' with
    | zero => rfl
    | succ f =>
      simp only [chunksExactGo, List.take_nil, List.length_nil]
      rw [if_neg (by omega)]
  | succ fuel ih =>
    intro fuel' l hl hl'
    cases fuel' with
    | zero =>
      have : l = [] := List.length_eq_zero.mp (Nat.le_zero.mp hl')
      subst this
      simp only [chunksExactGo, List.take_nil, List.length_nil]
      rw [if_neg (by omega)]
    | succ f =>
      simp only [chunksExactGo]
      split
      · next h =>
        have hlen : (l.drop n).length ≤ fuel := by
          simp only [List.length_take] at h
          simp only [List.length_drop]
          omega
        have hlen' : (l.drop n).length ≤ f := by
          simp only [List.length_take] at h
          simp only [List.length_drop]
          omega
        rw [ih f (l.drop n) hlen hlen']
      · rfl

theorem chunksExact_nil {α : Type} (n : ℕ) : chunksExact n ([] : List α) = [] := rfl

theorem chunksExact_of_length_lt {α : Type} {n : ℕ} {l : List α}
    (h : l.length < n) : chunksExact n l = [] := by
  unfold chunksExact
  cases hl : l.length with
  | zero => rfl
  | succ m =>
    simp only [chunksExactGo, List.length_take]
    rw [hl, if_neg (by omega)]

theorem chunksExact_cons {α : Type} {n : ℕ} {l : List α} (hn : 0 < n)
    (hl : n ≤ l.length) :
    chunksExact n l = l.take n :: chunksExact n (l.drop n) := by
  unfold chunksExact
  obtain ⟨m, hm⟩ : ∃ m, l.length = m + 1 := ⟨l.length - 1, by omega⟩
  rw [hm]
  simp only [chunksExactGo, List.length_take]
  rw [if_pos ⟨hn, by omega⟩]
  congr 1
  exact chunksExactGo_eq_of_le n m (l.drop n).length (l.drop n)
    (by simp only [List.length_drop]; omega) le_rfl

theorem chunksExact_append_of_dvd {α : Type} {n : ℕ} {a : List α} (b : List α)
    (h : n ∣ a.length) :
    chunksExact n (a ++ b) = chunksExact n a ++ chunksExact n b := by
  rcases Nat.eq_zero_or_pos n with hn | hn
  · subst hn
    have h0 : a.length = 0 := Nat.eq_zero_of_zero_dvd h
    have : a = [] := List.length_eq_zero.mp h0
    subst this
    simp [chunksExact_nil]
  · obtain ⟨k, hk⟩ := h
    induction k generalizing a with
    | zero =>
      have : a = [] := List.length_eq_zero.mp (by omega)
      subst this
      simp [chunksExact_nil]
    | succ k ih =>
      have hna : n ≤ a.length := by
        rw [hk]
        calc n = n * 1 := (Nat.mul_one n).symm
        _ ≤ n * (k + 1) := Nat.mul_le_mul_left n (by omega)
      rw [chunksExact_cons hn (le_trans hna (by simp)),
        chunksExact_cons hn hna,
        List.take_append_of_le_length hna,
        List.drop_append_of_le_length hna]
      have hdrop : (a.drop n).length = n * k := by
        rw [List.length_drop, hk, Nat.mul_succ]
        omega
      rw [ih hdrop]
      simp

theorem length_mem_chunksExactGo {α : Type} {n : ℕ} :
    ∀ {fuel : ℕ} {l : List α} {f : List α}, f ∈ chunksExactGo n fuel l →
      f.length = n := by
  intro fuel
  induction fuel with
  | zero => intro l f h; simp [chunksExactGo] at h
  | succ fuel ih =>
    intro l f h
    simp only [chunksExactGo] at h
    split at h
    · next hc =>
      rcases List.mem_cons.mp h with h | h
      · subst h
        simpa using hc.2
      · exact ih h
    · simp at h

theorem length_mem_chunksExact {α : Type} {n : ℕ} {l : List α} {f : List α}
    (h : f ∈ chunksExact n l) : f.length = n :=
  length_mem_chunksExactGo h

theorem flatten_length_of_all {α : Type} {n : ℕ} :
    ∀ {l : List (List α)}, (∀ f ∈ l, f.length = n) →
      l.flatten.length = l.length * n := by
  intro l
  induction l with
  | nil => simp
  | cons f fs ih =>
    intro h
    simp only [List.flatten_cons, List.length_append, List.length_cons]
    rw [h f (List.mem_cons_self f fs), ih (fun g hg => h g (List.mem_cons_of_mem f hg))]
    ring

section VADLemmas

variable {α : Type} [LinearOrderedRing α]

/-- Once the loop body of `SimpleVAD.process` returns a segment, the remaining
frames of the chunk are never examined. -/
theorem processFrames_append_of_emit {cfg : VADConfig α} {s : VADState α}
    {fs : List (List α)} (gs : List (List α)) {seg : List α}
    (h : (processFrames cfg s fs).2 = some seg) :
    processFrames cfg s (fs ++ gs) = processFrames cfg s fs := by
  induction fs generalizing s with
  | nil => simp [processFrames] at h
  | cons f fs ih =>
    simp only [processFrames, List.cons_append] at h ⊢
    rcases hstep : stepFrame cfg s f with ⟨s', o⟩
    simp only [hstep] at h ⊢
    cases o with
    | some seg' => rfl
    | none => exact ih h

/-- The bridge justifying `isSpeechFrame`: over the reals, for a nonempty
frame of rational samples, `sqrt(mean(frame²)) ≥ t` holds iff
`t ≤ 0 ∨ t²·len ≤ Σ x²` — the decidable comparison the embedding uses. -/
theorem isSpeechFrame_iff_rms (cfg : VADConfig ℚ) (f : List ℚ)
    (hf : 0 < f.length) :
    isSpeechFrame cfg f = true ↔
      (cfg.threshold : ℝ) ≤ Real.sqrt (((sumSq f : ℚ) : ℝ) / (f.length : ℝ)) := by
  have hlen : (0 : ℝ) < (f.length : ℝ) := by exact_mod_cast hf
  have hsq : (0 : ℝ) ≤ ((sumSq f : ℚ) : ℝ) := by
    have h0 : (0 : ℚ) ≤ sumSq f := by
      unfold sumSq
      apply List.sum_nonneg
      intro x hx
      rcases List.mem_map.mp hx with ⟨y, _, rfl⟩
      exact mul_self_nonneg y
    exact_mod_cast h0
  have hmean : (0 : ℝ) ≤ ((sumSq f : ℚ) : ℝ) / (f.length : ℝ) :=
    div_nonneg hsq (le_of_lt hlen)
  unfold isSpeechFrame
  simp only [decide_eq_true_eq]
  constructor
  · rintro (ht | ht)
    · calc (cfg.threshold : ℝ) ≤ 0 := by exact_mod_cast ht
        _ ≤ Real.sqrt _ := Real.sqrt_nonneg _
    · rcases le_or_lt (cfg.threshold : ℝ) 0 with h0 | h0
      · exact le_trans h0 (Real.sqrt_nonneg _)
      · rw [show ((cfg.threshold : ℚ) : ℝ) = Real.sqrt ((cfg.threshold : ℝ) ^ 2)
          from (Real.sqrt_sq (le_of_lt h0)).symm]
        apply Real.sqrt_le_sqrt
        rw [le_div_iff₀ hlen]
        have hc : ((cfg.threshold ^ 2 * (f.length : ℚ) : ℚ) : ℝ) ≤ ((sumSq f : ℚ) : ℝ) := by
          exact_mod_cast ht
        push_cast at hc
        simpa using hc
  · intro h
    rcases le_or_lt cfg.threshold 0 with h0 | h0
    · exact Or.inl h0
    · right
      have hpos : (0 : ℝ) < (cfg.threshold : ℝ) := by exact_mod_cast h0
      have hsq2 : (cfg.threshold : ℝ) ^ 2 ≤ ((sumSq f : ℚ) : ℝ) / (f.length : ℝ) := by
        calc (cfg.threshold : ℝ) ^ 2
            ≤ Real.sqrt (((sumSq f : ℚ) : ℝ) / (f.length : ℝ)) ^ 2 :=
              pow_le_pow_left₀ (le_of_lt hpos) h 2
          _ = ((sumSq f : ℚ) : ℝ) / (f.length : ℝ) := Real.sq_sqrt hmean
      have hc : ((cfg.threshold ^ 2 * (f.length : ℚ) : ℚ) : ℝ) ≤ ((sumSq f : ℚ) : ℝ) := by
        push_cast
        rw [← le_div_iff₀ hlen]
        exact_mod_cast hsq2
      exact_mod_cast hc

end VADLemmas

/-- Buffer well-formedness: every buffered frame has the configured length. -/
def BufWF {α : Type} (cfg : VADConfig α) (s : VADState α) : Prop :=
  ∀ f ∈ s.buffer, f.length = cfg.frameSamples

theorem bufWF_init {α : Type} (cfg : VADConfig α) :
    BufWF cfg (initVAD : VADState α) := by
  intro f hf
  simp [initVAD] at hf

section VADWF

variable {α : Type} [LinearOrderedRing α]

theorem stepFrame_wf {cfg : VADConfig α} {s : VADState α} {f : List α}
    (hs : BufWF cfg s) (hf : f.length = cfg.frameSamples) :
    BufWF cfg (stepFrame cfg s f).1 ∧
      (∀ seg, (stepFrame cfg s f).2 = some seg →
        ∃ k, 0 < k ∧ seg.length = k * cfg.frameSamples) := by
  have happend : ∀ g ∈ s.buffer ++ [f], g.length = cfg.frameSamples := by
    intro g hg
    rcases List.mem_append.mp hg with hg | hg
    · exact hs g hg
    · rw [List.mem_singleton.mp hg]; exact hf
  unfold stepFrame
  dsimp only
  split
  · refine ⟨?_, by intro seg hseg; simp at hseg⟩
    intro g hg
    simp only at hg
    rcases List.mem_append.mp hg with hg | hg
    · split at hg
      · exact hs g hg
      · simp at hg
    · rw [List.mem_singleton.mp hg]; exact hf
  · split
    · split
      · split
        · refine ⟨bufWF_init cfg, ?_⟩
          intro seg hseg
          simp only [Option.some.injEq] at hseg
          refine ⟨s.buffer.length + 1, by omega, ?_⟩
          rw [← hseg, flatten_length_of_all happend]
          simp
        · exact ⟨bufWF_init cfg, by intro seg hseg; simp at hseg⟩
      · refine ⟨?_, by intro seg hseg; simp at hseg⟩
        intro g hg
        simp only at hg
        exact happend g hg
    · exact ⟨fun g hg => hs g hg, by intro seg hseg; simp at hseg⟩

theorem processFrames_wf {cfg : VADConfig α} {fs : List (List α)}
    (hfs : ∀ f ∈ fs, f.length = cfg.frameSamples) :
    ∀ {s : VADState α}, BufWF cfg s →
      BufWF cfg (processFrames cfg s fs).1 ∧
        (∀ seg, (processFrames cfg s fs).2 = some seg →
          ∃ k, 0 < k ∧ seg.length = k * cfg.frameSamples) := by
  induction fs with
  | nil =>
    intro s hs
    exact ⟨hs, by intro seg hseg; simp [processFrames] at hseg⟩
  | cons f fs ih =>
    intro s hs
    have hf : f.length = cfg.frameSamples := hfs f (List.mem_cons_self f fs)
    have hstep := stepFrame_wf hs hf
    simp only [processFrames]
    rcases hs' : stepFrame cfg s f with ⟨s', o⟩
    rw [hs'] at hstep
    cases o with
    | some seg =>
      exact ⟨hstep.1, by
        intro seg' hseg'
        simp only [Option.some.injEq] at hseg'
        exact hseg' ▸ hstep.2 seg rfl⟩
    | none =>
      exact ih (fun g hg => hfs g (List.mem_cons_of_mem f hg)) hstep.1

end VADWF

/-! ### Channelizer length lemmas -/

theorem length_diffQ (l : List ℚ) : (diffQ l).length = l.length - 1 := by
  unfold diffQ
  cases l with
  | nil => simp
  | cons x xs => simp [List.length_zipWith]

theorem length_cumsumFrom (acc : ℚ) :
    ∀ l : List ℚ, (cumsumFrom acc l).length = l.length := by
  intro l
  induction l generalizing acc with
  | nil => rfl
  | cons x xs ih => simp [cumsumFrom, ih]

theorem length_cumsum (l : List ℚ) : (cumsum l).length = l.length :=
  length_cumsumFrom 0 l

theorem length_unwrapQ (piQ : ℚ) (p : List ℚ) :
    (unwrapQ piQ p).length = p.length := by
  cases p with
  | nil => rfl
  | cons p0 rest =>
    simp only [unwrapQ, List.length_cons]
    rw [List.length_zipWith, length_cumsum, List.length_zipWith,
      List.length_zipWith, List.length_map, length_diffQ]
    simp only [List.length_cons]
    omega

theorem length_nbfmDemod (K : Kernels) (rate : ℚ) (x : List Qc)
    (hx : 2 ≤ x.length) :
    (nbfmDemod K rate x).length = x.length := by
  unfold nbfmDemod
  dsimp only
  rcases hi : (diffQ (unwrapQ K.piQ (x.map K.argF))).map
      (fun d => d * rate / (2 * K.piQ)) with _ | ⟨h, t⟩
  · have hd := congrArg List.length hi
    rw [List.length_map, length_diffQ, length_unwrapQ, List.length_map] at hd
    simp only [List.length_nil] at hd
    simp only [List.length_map, List.length_nil]
    omega
  · have hd := congrArg List.length hi
    rw [List.length_map, length_diffQ, length_unwrapQ, List.length_map] at hd
    simp only [List.length_cons] at hd
    simp only [List.length_map, List.length_cons]
    omega

theorem length_strided {α : Type} {d : ℕ} (hd : 0 < d) (l : List α) :
    (strided d l).length = (l.length + d - 1) / d := by
  obtain ⟨n, hn⟩ : ∃ n, l.length ≤ n := ⟨l.length, le_rfl⟩
  induction n generalizing l with
  | zero =>
    have : l = [] := List.length_eq_zero.mp (Nat.le_zero.mp hn)
    subst this
    simp only [strided, List.length_nil, Nat.zero_add]
    rw [Nat.div_eq_of_lt (by omega)]
  | succ n ih =>
    cases l with
    | nil =>
      simp only [strided, List.length_nil, Nat.zero_add]
      rw [Nat.div_eq_of_lt (by omega)]
    | cons x xs =>
      simp only [strided, List.length_cons]
      rw [ih (xs.drop (d - 1))
        (by simp only [List.length_drop]; simp only [List.length_cons] at hn; omega)]
      rw [List.length_drop]
      rcases le_or_lt (d - 1) xs.length with hle | hlt
      · have h1 : xs.length - (d - 1) + d - 1 = xs.length := by omega
        have h2 : xs.length + 1 + d - 1 = xs.length + d := by omega
        rw [h1, h2, Nat.add_div_right _ hd]
      · have h1 : xs.length - (d - 1) = 0 := by omega
        have h2 : xs.length + 1 + d - 1 = xs.length + d := by omega
        rw [h1, h2, Nat.zero_add, Nat.div_eq_of_lt (by omega),
          Nat.add_div_right _ hd, Nat.div_eq_of_lt (by omega)]

theorem length_normalizeBlock (c : ChanConfig) (iq : List Qc) :
    (normalizeBlock c iq).length = c.blockSamples := by
  unfold normalizeBlock
  split
  · next h =>
    simp only [List.length_append, List.length_replicate]
    omega
  · next h =>
    simp only [List.length_take]
    omega

theorem normalizeBlock_of_length_eq (c : ChanConfig) (y : List Qc)
    (hy : y.length = c.blockSamples) : normalizeBlock c y = y := by
  unfold normalizeBlock
  rw [hy, if_neg (lt_irrefl _)]
  calc y.take c.blockSamples = y.take y.length := by rw [hy]
    _ = y := List.take_length y

theorem normalizeBlock_idem (c : ChanConfig) (iq : List Qc) :
    normalizeBlock c (normalizeBlock c iq) = normalizeBlock c iq :=
  normalizeBlock_of_length_eq c _ (length_normalizeBlock c iq)

theorem length_mixBlock (c : ChanConfig) (K : Kernels) (iq : List Qc)
    (offsetHz : ℚ) : (mixBlock c K iq offsetHz).length = iq.length := by
  simp [mixBlock]

theorem length_decimatedBaseband (c : ChanConfig) (K : Kernels)
    (hsosC : ∀ l, (K.sosChannel l).length = l.length)
    (bb : List Qc) (hbb : bb.length = c.blockSamples) :
    (decimatedBaseband c K bb).length = decimLen c := by
  unfold decimatedBaseband decimLen
  split
  · next h => rw [length_strided (by omega), hsosC, hbb]
  · next h => rw [hsosC, hbb]

theorem length_resampleTo16k (K : Kernels)
    (hres : ∀ a n, (K.resample a n).length = n) (a : List ℚ) (r : ℚ) :
    (resampleTo16k K a r).length =
      if r = AUDIO_RATE then a.length
      else (pyRound ((a.length : ℚ) * AUDIO_RATE / r)).toNat := by
  unfold resampleTo16k
  split
  · rfl
  · rw [hres]

theorem length_processChannel (c : ChanConfig) (K : Kernels)
    (hsosC : ∀ l, (K.sosChannel l).length = l.length)
    (hsosA : ∀ l, (K.sosAudio l).length = l.length)
    (hres : ∀ a n, (K.resample a n).length = n)
    (iq : List Qc) (offsetHz : ℚ)
    (hlen : iq.length = c.blockSamples) (hd : 2 ≤ decimLen c) :
    (processChannel c K iq offsetHz).length = outLen c := by
  unfold processChannel
  have hdec : (decimatedBaseband c K (mixBlock c K iq offsetHz)).length =
      decimLen c :=
    length_decimatedBaseband c K hsosC _ (by rw [length_mixBlock, hlen])
  have hdemod : (nbfmDemod K (chanRate c)
      (decimatedBaseband c K (mixBlock c K iq offsetHz))).length = decimLen c := by
    rw [length_nbfmDemod _ _ _ (by rw [hdec]; exact hd), hdec]
  rw [length_resampleTo16k K hres, hsosA, hdemod]
  unfold outLen
  rfl

/-! ### Drop-oldest queue lemmas -/

theorem enqueueDrop_length_le {α : Type} {cap : ℕ} (hcap : 0 < cap)
    {q : List α} (x : α) (hq : q.length ≤ cap) :
    (enqueueDrop cap q x).length ≤ cap := by
  unfold enqueueDrop
  split
  · next h =>
    simp only [List.length_append, List.length_drop, List.length_cons,
      List.length_nil]
    omega
  · next h =>
    simp only [List.length_append, List.length_cons, List.length_nil]
    rw [not_and_or] at h
    omega

theorem runEnqueue_from_nil {α : Type} {cap : ℕ} (hcap : 0 < cap)
    (xs : List α) :
    runEnqueue cap ([] : List α) xs = xs.drop (xs.length - cap) := by
  induction xs using List.reverseRecOn with
  | nil => simp [runEnqueue]
  | append_singleton xs x ih =>
    unfold runEnqueue at ih ⊢
    rw [List.foldl_append]
    simp only [List.foldl_cons, List.foldl_nil]
    rw [ih]
    unfold enqueueDrop
    rcases le_or_lt cap xs.length with hle | hlt
    · rw [if_pos ⟨hcap, by simp only [List.length_drop]; omega⟩]
      rw [List.drop_drop]
      rw [List.drop_append_of_le_length (by simp only [List.length_append,
        List.length_cons, List.length_nil]; omega)]
      congr 2
      simp only [List.length_append, List.length_cons, List.length_nil]
      omega
    · rw [if_neg (by simp only [List.length_drop]; omega)]
      have h1 : xs.length - cap = 0 := by omega
      have h2 : (xs ++ [x]).length - cap = 0 := by
        simp only [List.length_append, List.length_cons, List.length_nil]
        omega
      rw [h1, h2]
      simp

/-! ## Claim theorems -/

/-- Reassociation step for merging adjacent replicate runs. -/
theorem replicate_append_replicate {α : Type} (m n : ℕ) (a : α) (l : List α) :
    List.replicate m a ++ (List.replicate n a ++ l) =
      List.replicate (m + n) a ++ l := by
  rw [← List.append_assoc, ← List.replicate_add]

set_option maxRecDepth 10000 in
/-- **C1.** In `Speech`, a below-threshold frame that raises the silence
counter to the end-silence count makes `SimpleVAD.process` emit the buffered
frames (the silent frame included) concatenated as one segment — returning
immediately — when the accumulated speech-frame count meets the minimum;
otherwise it discards the buffer and continues with the rest of the chunk; in
both cases the state returns to `Silence` with both counters zero and the
buffer empty (`initVAD`).  On the §8 synthetic envelope (200 ms silence,
600 ms tone, 900 ms silence; 30 ms frames, min-speech 400 ms, end-silence
800 ms) the VAD emits exactly one segment, and on a 200 ms burst followed by
silence it emits nothing. -/
theorem C1_end_silence_segmentation :
    (∀ (β : Type) [_inst : LinearOrderedRing β] (cfg : VADConfig β)
        (s : VADState β) (f : List β) (rest : List (List β)),
        s.inSpeech = true →
        isSpeechFrame cfg f = false →
        s.silenceFrames + 1 = cfg.endSilenceFrames →
        (cfg.minSpeechFrames ≤ s.speechFrames →
          processFrames cfg s (f :: rest) =
            (initVAD, some (s.buffer ++ [f]).flatten)) ∧
        (s.speechFrames < cfg.minSpeechFrames →
          processFrames cfg s (f :: rest) = processFrames cfg initVAD rest)) ∧
    ((runVAD vadCfg8 initVAD envFrames).2).length = 1 ∧
    envFrames.flatten =
      List.replicate 3200 (0 : ℤ) ++ List.replicate 9600 2 ++
        List.replicate 14400 0 ∧
    (runVAD vadCfg8 initVAD shortToneFrames).2 = [] ∧
    shortToneFrames.flatten =
      List.replicate 3200 (2 : ℤ) ++ List.replicate 14400 0 := by
  refine ⟨?_, ?_, ?_, ?_, ?_⟩
  · intro β _inst cfg s f rest hin hns hsil
    have hnotspeech : ¬ (isSpeechFrame cfg f = true) := by simp [hns]
    constructor
    · intro hmin
      have hstep : stepFrame cfg s f = (initVAD, some (s.buffer ++ [f]).flatten) := by
        unfold stepFrame
        rw [if_neg hnotspeech, if_pos hin]
        dsimp only
        rw [if_pos (le_of_eq hsil.symm), if_pos hmin]
      simp [processFrames, hstep]
    · intro hmin
      have hstep : stepFrame cfg s f = (initVAD, none) := by
        unfold stepFrame
        rw [if_neg hnotspeech, if_pos hin]
        dsimp only
        rw [if_pos (le_of_eq hsil.symm), if_neg (by omega)]
      simp [processFrames, hstep]
  · decide
  · show envFrames.flatten = _
    simp only [envFrames, List.flatten_append, List.flatten_cons,
      List.flatten_nil, List.flatten_replicate_replicate, List.append_nil,
      List.append_assoc]
    simp only [replicate_append_replicate, ← List.replicate_add]
  · decide
  · show shortToneFrames.flatten = _
    simp only [shortToneFrames, List.flatten_append, List.flatten_cons,
      List.flatten_nil, List.flatten_replicate_replicate, List.append_nil,
      List.append_assoc]
    simp only [replicate_append_replicate, ← List.replicate_add]

set_option maxRecDepth 8000 in
/-- Witness for C1: a VAD (1 kHz rate, 30-sample frames) in `Speech` with 13
accumulated speech frames and the silence counter one short of 26 emits the
buffered segment on one more silent frame. -/
theorem C1_end_silence_segmentation_witness :
    ((⟨13, 25, [List.replicate 30 2], true⟩ : VADState ℤ).inSpeech = true ∧
      isSpeechFrame cfgC6 (List.replicate 30 0) = false ∧
      25 + 1 = cfgC6.endSilenceFrames ∧
      cfgC6.minSpeechFrames ≤ 13) ∧
    processFrames cfgC6 ⟨13, 25, [List.replicate 30 2], true⟩
        [List.replicate 30 0] =
      (initVAD,
        some (([List.replicate 30 2] ++ [List.replicate 30 0]).flatten)) :=
  ⟨⟨by decide, by decide, by decide, by decide⟩,
    (C1_end_silence_segmentation.1 ℤ cfgC6
      ⟨13, 25, [List.replicate 30 2], true⟩ (List.replicate 30 0) []
      (by decide) (by decide) (by decide)).1 (by decide)⟩

/-- **C2.** The drop-oldest bounded queue (`_run` in `channelizer.py`,
`run_ingest` in `main.py`): the length never exceeds the capacity, and
enqueueing N+1 items into an empty queue of capacity N leaves exactly the N
most-recently-enqueued items in FIFO order (the oldest was evicted).  The
producer-side `enqueueDrop` is a total function — it never blocks. -/
theorem C2_drop_oldest_queue (β : Type) (cap : ℕ) (hcap : 0 < cap) :
    (∀ (q : List β) (x : β), q.length ≤ cap →
      (enqueueDrop cap q x).length ≤ cap) ∧
    (∀ xs : List β, xs.length = cap + 1 →
      runEnqueue cap ([] : List β) xs = xs.drop 1 ∧
      (runEnqueue cap ([] : List β) xs).length = cap) := by
  refine ⟨fun q x hq => enqueueDrop_length_le hcap x hq, fun xs hxs => ?_⟩
  have h := runEnqueue_from_nil hcap xs
  have h1 : xs.length - cap = 1 := by omega
  rw [h1] at h
  refine ⟨h, ?_⟩
  rw [h, List.length_drop]
  omega

/-- Witness for C2 at capacity 2: three enqueues keep the two newest. -/
theorem C2_drop_oldest_queue_witness :
    (0 < 2 ∧ [(5 : ℕ)].length ≤ 2 ∧ [(1 : ℕ), 2, 3].length = 2 + 1) ∧
    (enqueueDrop 2 [(5 : ℕ)] 6).length ≤ 2 ∧
    runEnqueue 2 ([] : List ℕ) [1, 2, 3] = [2, 3] :=
  ⟨⟨by decide, by decide, by decide⟩,
    (C2_drop_oldest_queue ℕ 2 (by decide)).1 [5] 6 (by decide),
    by
      have h := ((C2_drop_oldest_queue ℕ 2 (by decide)).2 [1, 2, 3] (by decide)).1
      simpa using h⟩

set_option maxRecDepth 8000 in
/-- Counterexample to **C6** as stated: a reachable VAD state (150 ms of tone
then 270 ms of silence at 1 kHz) is in `Speech` with 420 ms ≥ 400 ms of
buffered audio, yet `flush` yields no segment — the code gates `flush` on the
accumulated speech-frame counter (5 < 13), not on the buffered duration,
which also counts the buffered trailing-silence frames. -/
theorem C6_counterexample :
    ¬ (((vadFlush cfgC6 c6State).2).isSome = true ↔
        (c6State.inSpeech = true ∧ 400 ≤ bufferedMs 1000 c6State)) := by
  decide

/-- **C6 (amended).** `flush` returns exactly one segment — the concatenation
of the buffered frames, with the state then reset — iff the VAD is in
`Speech` with a nonempty buffer and an accumulated speech-frame count at
least the minimum-speech-frame threshold; otherwise it returns no segment and
leaves the state unchanged. -/
theorem C6_flush_amended :
    ∀ (β : Type) [_inst : LinearOrderedRing β] (cfg : VADConfig β)
      (s : VADState β),
      (((vadFlush cfg s).2).isSome = true ↔
        (s.inSpeech = true ∧ s.buffer ≠ [] ∧
          cfg.minSpeechFrames ≤ s.speechFrames)) ∧
      (∀ seg, (vadFlush cfg s).2 = some seg →
        seg = s.buffer.flatten ∧ (vadFlush cfg s).1 = initVAD) ∧
      ((vadFlush cfg s).2 = none → (vadFlush cfg s).1 = s) := by
  intro β _inst cfg s
  unfold vadFlush
  split
  · next hcond =>
    refine ⟨by simpa using hcond, ?_, by simp⟩
    intro seg hseg
    simp only [Option.some.injEq] at hseg
    exact ⟨hseg.symm, rfl⟩
  · next hcond =>
    refine ⟨by simpa using hcond, ?_, fun _ => rfl⟩
    intro seg hseg
    simp at hseg

set_option maxRecDepth 8000 in
/-- Witness for the amended C6: a `Speech` state with 13 speech frames
flushes to its buffered segment, and `c6State` (5 speech frames) does not. -/
theorem C6_flush_amended_witness :
    ((vadFlush cfgC6 ⟨13, 3, [List.replicate 30 2], true⟩).2).isSome = true ∧
    ((vadFlush cfgC6 c6State).2).isSome = false :=
  ⟨(C6_flush_amended ℤ cfgC6 ⟨13, 3, [List.replicate 30 2], true⟩).1.mpr
      ⟨by decide, by decide, by decide⟩,
    by
      have h := (C6_flush_amended ℤ cfgC6 c6State).1
      have hn : ¬ (c6State.inSpeech = true ∧ c6State.buffer ≠ [] ∧
          cfgC6.minSpeechFrames ≤ c6State.speechFrames) := by decide
      have hne : ¬ (((vadFlush cfgC6 c6State).2).isSome = true) :=
        fun ht => hn (h.mp ht)
      exact (Bool.not_eq_true _) ▸ hne⟩

/-- **C3.** For a `Channelizer` built by the constructor (which rejects any
channel count other than 7), `process_block` returns exactly 7 audio chunks on
every input block, each of the fixed length `outLen` — a function of the
configured block length, decimation factor and resampling ratio only, never
of the input.  The hypotheses are the documented length contracts of the
scipy kernels (`sosfiltfilt` preserves length, `resample` returns the
requested count) and that the decimated block holds at least 2 samples (true
of every real configuration; the code indexes `inst_freq[0]` after a
`diff`). -/
theorem C3_seven_chunks_fixed_length
    (center rate : ℚ) (freqs : List ℚ) (bs : ℕ) (c : ChanConfig) (K : Kernels)
    (hok : mkChannelizer center rate freqs bs = Except.ok c)
    (hsosC : ∀ l, (K.sosChannel l).length = l.length)
    (hsosA : ∀ l, (K.sosAudio l).length = l.length)
    (hres : ∀ a n, (K.resample a n).length = n)
    (hd : 2 ≤ decimLen c) :
    (∀ iq : List Qc, (processBlock c K iq).length = 7 ∧
      ∀ out ∈ processBlock c K iq, out.length = outLen c) ∧
    (∀ (center' rate' : ℚ) (freqs' : List ℚ) (bs' : ℕ),
      (∃ e, mkChannelizer center' rate' freqs' bs' = Except.error e) ↔
        freqs'.length ≠ 7) := by
  have hc : c.frequenciesHz.length = 7 := by
    unfold mkChannelizer at hok
    split at hok
    · exact absurd hok (by simp)
    · next h =>
      cases hok
      simpa using h
  constructor
  · intro iq
    constructor
    · unfold processBlock offsetsHz
      rw [List.length_map, List.length_map, hc]
    · intro out hout
      unfold processBlock at hout
      rcases List.mem_map.mp hout with ⟨off, _, rfl⟩
      exact length_processChannel c K hsosC hsosA hres _ off
        (length_normalizeBlock c iq) hd
  · intro center' rate' freqs' bs'
    constructor
    · rintro ⟨e, he⟩
      unfold mkChannelizer at he
      split at he
      · next h => exact h
      · exact absurd he (by simp)
    · intro h
      refine ⟨"frequencies_hz must have exactly 7 entries", ?_⟩
      unfold mkChannelizer
      rw [if_pos h]

/-- Witness for C3: the concrete 7-channel configuration `cW` with identity
kernels yields 7 chunks on a 1-sample block, and an 8-frequency constructor
call is rejected. -/
theorem C3_seven_chunks_fixed_length_witness :
    (mkChannelizer 0 16000 [0, 0, 0, 0, 0, 0, 0] 3 = Except.ok cW ∧
      2 ≤ decimLen cW) ∧
    (processBlock cW idKernels [⟨1, 0⟩]).length = 7 ∧
    (∃ e, mkChannelizer 0 16000 [0, 0, 0, 0, 0, 0, 0, 0] 3 =
      Except.error e) := by
  have hok : mkChannelizer 0 16000 [0, 0, 0, 0, 0, 0, 0] 3 = Except.ok cW := rfl
  have hd : 2 ≤ decimLen cW := by norm_num [decimLen, decim, cW]
  have h := C3_seven_chunks_fixed_length 0 16000 [0, 0, 0, 0, 0, 0, 0] 3 cW
    idKernels hok (fun l => rfl) (fun l => rfl)
    (fun a n => List.length_replicate n 0) hd
  exact ⟨⟨hok, hd⟩, (h.1 [⟨1, 0⟩]).1,
    (h.2 0 16000 [0, 0, 0, 0, 0, 0, 0, 0] 3).mpr (by simp)⟩

/-- **C4.** `_nbfm_demod` computes exactly the spec's formula: the first
difference of the unwrapped sample-wise phase scaled by `R/(2π)`, divided by
the 12.5 kHz nominal deviation, hard-clipped to [-2, 2], with the first
output sample repeating the first computed value so that the output length
equals the input length (input length ≥ 2). -/
theorem C4_nbfm_demod_matches_spec (K : Kernels) (rate : ℚ) (x : List Qc)
    (hx : 2 ≤ x.length) :
    nbfmDemod K rate x = specNbfmDemod K rate x ∧
      (nbfmDemod K rate x).length = x.length := by
  refine ⟨?_, length_nbfmDemod K rate x hx⟩
  unfold nbfmDemod specNbfmDemod
  dsimp only
  rcases hi : (diffQ (unwrapQ K.piQ (x.map K.argF))).map
      (fun d => d * rate / (2 * K.piQ)) with _ | ⟨h, t⟩
  · rfl
  · simp

/-- Witness for C4 on a concrete 2-sample block. -/
theorem C4_nbfm_demod_matches_spec_witness :
    2 ≤ ([⟨1, 0⟩, ⟨1, 0⟩] : List Qc).length ∧
    nbfmDemod idKernels 16000 [⟨1, 0⟩, ⟨1, 0⟩] =
      specNbfmDemod idKernels 16000 [⟨1, 0⟩, ⟨1, 0⟩] :=
  ⟨by decide,
    (C4_nbfm_demod_matches_spec idKernels 16000 [⟨1, 0⟩, ⟨1, 0⟩] (by decide)).1⟩

/-- **C5.** `process_block` handles any input length by deterministic
padding/truncation instead of raising: the normalized block always has
exactly the configured length (a short block is zero-padded at the end, a
long one truncated), and processing any block equals processing its
normalization — in the total-function embedding no input-dependent failure
path exists. -/
theorem C5_pad_truncate_never_raises (c : ChanConfig) (K : Kernels)
    (iq : List Qc) :
    (normalizeBlock c iq).length = c.blockSamples ∧
    (iq.length < c.blockSamples →
      normalizeBlock c iq = iq ++ List.replicate (c.blockSamples - iq.length) czero) ∧
    (c.blockSamples ≤ iq.length → normalizeBlock c iq = iq.take c.blockSamples) ∧
    processBlock c K iq = processBlock c K (normalizeBlock c iq) := by
  refine ⟨length_normalizeBlock c iq, ?_, ?_, ?_⟩
  · intro h
    unfold normalizeBlock
    rw [if_pos h]
  · intro h
    unfold normalizeBlock
    rw [if_neg (by omega)]
  · unfold processBlock
    rw [normalizeBlock_idem]

/-- Witness for C5: a 1-sample block in a 3-sample configuration is
zero-padded to 3 samples. -/
theorem C5_pad_truncate_never_raises_witness :
    ([⟨1, 0⟩] : List Qc).length < cW.blockSamples ∧
    normalizeBlock cW [⟨1, 0⟩] =
      [⟨1, 0⟩] ++ List.replicate (cW.blockSamples - 1) czero :=
  ⟨by decide,
    (C5_pad_truncate_never_raises cW idKernels [⟨1, 0⟩]).2.1 (by decide)⟩

/-- **C7.** `process_block` assigns no attribute of the `Channelizer`: in the
state-passing embedding the object record is returned unchanged by any run,
and the outputs of a run are exactly the per-block results of the pure
function `processBlock` applied to the initial configuration — so equal input
blocks give equal outputs regardless of what was processed before (the mixing
oscillator is rebuilt from sample index 0 inside `mixBlock` on every call,
and no filter state is carried). -/
theorem C7_process_block_stateless (K : Kernels) (c : ChanConfig)
    (blocks : List (List Qc)) :
    (runBlocks K c blocks).1 = c ∧
    (runBlocks K c blocks).2 = blocks.map (processBlock c K) ∧
    (∀ prior : List (List Qc), ∀ b : List Qc,
      (runBlocks K c (prior ++ [b])).2.getLast? = some (processBlock c K b)) := by
  have hrun : ∀ bl : List (List Qc),
      (runBlocks K c bl).1 = c ∧ (runBlocks K c bl).2 = bl.map (processBlock c K) := by
    intro bl
    induction bl with
    | nil => exact ⟨rfl, rfl⟩
    | cons b bs ih =>
      constructor
      · show (runBlocks K c bs).1 = c
        exact ih.1
      · show processBlock c K b :: (runBlocks K c bs).2 = _
        rw [ih.2, List.map_cons]
  refine ⟨(hrun blocks).1, (hrun blocks).2, ?_⟩
  intro prior b
  rw [(hrun (prior ++ [b])).2, List.map_append, List.map_singleton,
    List.getLast?_concat]

/-- **C8.** Only whole frames are classified: a trailing remainder shorter
than one frame is dropped, leaving the result of `process` — its returned
state included — identical to processing the whole-frame prefix alone; the
state type carries no residual-sample field, so nothing is carried into the
next chunk. -/
theorem C8_trailing_remainder_dropped :
    ∀ (β : Type) [_inst : LinearOrderedRing β] (cfg : VADConfig β)
      (s : VADState β) (a r : List β),
      cfg.frameSamples ∣ a.length → r.length < cfg.frameSamples →
      process cfg s (a ++ r) = process cfg s a := by
  intro β _inst cfg s a r hdvd hlt
  unfold process
  rw [chunksExact_append_of_dvd r hdvd, chunksExact_of_length_lt hlt,
    List.append_nil]

/-- Witness for C8: 35 samples at a 30-sample frame length behave as the
first 30 samples alone. -/
theorem C8_trailing_remainder_dropped_witness :
    (cfgC6.frameSamples ∣ (List.replicate 30 (2 : ℤ)).length ∧
      (List.replicate 5 (0 : ℤ)).length < cfgC6.frameSamples) ∧
    process cfgC6 initVAD (List.replicate 30 (2 : ℤ) ++ List.replicate 5 0) =
      process cfgC6 initVAD (List.replicate 30 2) :=
  ⟨⟨by decide, by decide⟩,
    C8_trailing_remainder_dropped ℤ cfgC6 initVAD (List.replicate 30 2)
      (List.replicate 5 0) (by decide) (by decide)⟩

/-- **C9.** `SimpleVAD.process` returns at most one segment per call (its
return type is a single optional segment), and once the segment is emitted
the call returns at once: appending further frames — or further samples, for
a frame-aligned prefix — to the chunk changes neither the returned state nor
the returned segment. -/
theorem C9_early_return_discards_rest :
    ∀ (β : Type) [_inst : LinearOrderedRing β] (cfg : VADConfig β)
      (s : VADState β) (fs gs : List (List β)) (a b : List β) (seg : List β),
      ((processFrames cfg s fs).2 = some seg →
        processFrames cfg s (fs ++ gs) = processFrames cfg s fs) ∧
      (cfg.frameSamples ∣ a.length → (process cfg s a).2 = some seg →
        process cfg s (a ++ b) = process cfg s a) := by
  intro β _inst cfg s fs gs a b seg
  refine ⟨fun h => processFrames_append_of_emit gs h, fun hdvd h => ?_⟩
  unfold process at h ⊢
  rw [chunksExact_append_of_dvd b hdvd]
  exact processFrames_append_of_emit _ h

/-- Witness for C9: a chunk that completes a segment (13 speech frames, then
26 silent frames) gives the same result with further audio appended. -/
theorem C9_early_return_discards_rest_witness :
    ((process cfgC6 ⟨13, 25, [List.replicate 30 2], true⟩
        (List.replicate 30 (0 : ℤ))).2).isSome = true ∧
    process cfgC6 ⟨13, 25, [List.replicate 30 2], true⟩
        (List.replicate 30 (0 : ℤ) ++ List.replicate 60 2) =
      process cfgC6 ⟨13, 25, [List.replicate 30 2], true⟩
        (List.replicate 30 0) := by
  have hsome : (process cfgC6 ⟨13, 25, [List.replicate 30 2], true⟩
      (List.replicate 30 (0 : ℤ))).2 =
      some (([List.replicate 30 2] ++ [List.replicate 30 0]).flatten) := by
    decide
  refine ⟨by rw [hsome]; rfl, ?_⟩
  exact (C9_early_return_discards_rest ℤ cfgC6
    ⟨13, 25, [List.replicate 30 2], true⟩ [] [] (List.replicate 30 0)
    (List.replicate 60 2) _).2 (by decide) hsome

/-- **C10.** Every segment returned by `process` or `flush` — from a state
whose buffered frames all have the configured frame length, as every
reachable state has (`initVAD` vacuously, and `process` preserves it) — is a
concatenation of whole frames: its length is a positive multiple of the
frame length. -/
theorem C10_segment_whole_frame_multiple :
    ∀ (β : Type) [_inst : LinearOrderedRing β] (cfg : VADConfig β)
      (s : VADState β) (audio : List β) (seg : List β),
      BufWF cfg s →
      ((process cfg s audio).2 = some seg →
        ∃ k, 0 < k ∧ seg.length = k * cfg.frameSamples) ∧
      BufWF cfg (process cfg s audio).1 ∧
      ((vadFlush cfg s).2 = some seg →
        ∃ k, 0 < k ∧ seg.length = k * cfg.frameSamples) ∧
      BufWF cfg (initVAD : VADState β) := by
  intro β _inst cfg s audio seg hwf
  have hframes : ∀ f ∈ chunksExact cfg.frameSamples audio,
      f.length = cfg.frameSamples :=
    fun f hf => length_mem_chunksExact hf
  have h := processFrames_wf hframes hwf
  refine ⟨fun hseg => h.2 seg hseg, h.1, ?_, bufWF_init cfg⟩
  intro hseg
  unfold vadFlush at hseg
  split at hseg
  · next hcond =>
    simp only [Option.some.injEq] at hseg
    refine ⟨s.buffer.length, List.length_pos.mpr hcond.2.1, ?_⟩
    rw [← hseg, flatten_length_of_all hwf]
  · simp at hseg

/-- Witness for C10: the segment flushed from a well-formed `Speech` state is
one whole frame long. -/
theorem C10_segment_whole_frame_multiple_witness :
    BufWF cfgC6 (⟨13, 3, [List.replicate 30 2], true⟩ : VADState ℤ) ∧
    (vadFlush cfgC6 (⟨13, 3, [List.replicate 30 2], true⟩ : VADState ℤ)).2 =
      some (([List.replicate 30 2] : List (List ℤ)).flatten) ∧
    ∃ k, 0 < k ∧
      (([List.replicate 30 2] : List (List ℤ)).flatten).length =
        k * cfgC6.frameSamples := by
  have hwf : BufWF cfgC6 (⟨13, 3, [List.replicate 30 2], true⟩ : VADState ℤ) := by
    intro f hf
    simp only [List.mem_singleton] at hf
    rw [hf]
    decide
  have hflush : (vadFlush cfgC6
      (⟨13, 3, [List.replicate 30 2], true⟩ : VADState ℤ)).2 =
      some (([List.replicate 30 2] : List (List ℤ)).flatten) := by decide
  exact ⟨hwf, hflush,
    (C10_segment_whole_frame_multiple ℤ cfgC6
      ⟨13, 3, [List.replicate 30 2], true⟩ [] _ hwf).2.2.1 hflush⟩

end MemoRF
